import Mathlib

/-!
Shallow embedding of the definition-extraction core of
`crates/neopilot-repo-map/src/lib.rs`.

Parsing and query execution are performed by the external tree-sitter
library; the embedding therefore takes the list of tagged captures that the
compiled query produces on the parsed tree as an explicit argument, and
models the capture-processing loop, the per-kind definition maps, the
visibility filters and the serializer exactly as written in `lib.rs`.
-/

namespace RepoMap

/-- Represents a function or method definition (`Func` in `lib.rs`). -/
structure Func where
  name : String
  params : String
  return_type : String
  accessibility_modifier : Option String
deriving DecidableEq

/-- Represents a variable definition (`Variable` in `lib.rs`). -/
structure Variable where
  name : String
  value_type : String
deriving DecidableEq

/-- Represents a class or module definition (`Class` in `lib.rs`). -/
structure Class where
  type_name : String
  name : String
  methods : List Func
  properties : List Variable
  visibility_modifier : Option String
deriving DecidableEq

/-- Represents an enum definition (`Enum` in `lib.rs`). -/
structure Enum where
  name : String
  items : List Variable
deriving DecidableEq

/-- Represents a union definition (`Union` in `lib.rs`). -/
structure Union where
  name : String
  items : List Variable
deriving DecidableEq

/-- Represents a top-level code definition (`Definition` in `lib.rs`). -/
inductive Definition where
  | Func : Func → Definition
  | Class : Class → Definition
  | Module : Class → Definition
  | Enum : Enum → Definition
  | Variable : Variable → Definition
  | Union : Union → Definition
deriving DecidableEq

/-- Mirrors `get_ts_language`: the grammar registry keyed by language identifier.
The compiled grammar object is external; only its presence matters to the
control flow of `extract_definitions`. -/
def get_ts_language (language : String) : Option Unit :=
  match language with
  | "rust" => some ()
  | "python" => some ()
  | "php" => some ()
  | "java" => some ()
  | "javascript" => some ()
  | "typescript" => some ()
  | "go" => some ()
  | "c" => some ()
  | "cpp" => some ()
  | "lua" => some ()
  | "ruby" => some ()
  | "zig" => some ()
  | "scala" => some ()
  | "swift" => some ()
  | "elixir" => some ()
  | "csharp" => some ()
  | _ => none

/-- Mirrors `get_definitions_query`. The embedded query text and its compilation
by tree-sitter are external; `queryCompile` stands for the result of
`Query::new` on the language's query asset. -/
def get_definitions_query (language : String) (queryCompile : Except String Unit) :
    Except String Unit :=
  match get_ts_language language with
  | none => Except.error ("Unsupported language: " ++ language)
  | some _ =>
    Except.mapError (fun e => "Failed to parse query for " ++ language ++ ": " ++ e)
      queryCompile

/-- Mirrors `is_first_letter_uppercase`. Rust `char::is_uppercase` is full
Unicode; `Char.isUpper` agrees with it on ASCII identifiers, the range the
go export convention concerns. -/
def is_first_letter_uppercase (name : String) : Bool :=
  match name.toList with
  | [] => false
  | c :: _ => c.isUpper

/-- Substring containment on char sequences; `chars_contains needle hay` is
true when `needle` occurs contiguously inside `hay`. -/
def chars_contains (needle : List Char) : List Char → Bool
  | [] => needle.isPrefixOf []
  | h :: t => needle.isPrefixOf (h :: t) || chars_contains needle t

/-- Substring containment, mirroring Rust `str::contains` as used on the
visibility-modifier text. -/
def contains_substring (haystack needle : String) : Bool :=
  chars_contains needle.toList haystack.toList

/-- Lexicographic comparison of char sequences: the iteration order of a
`BTreeMap<String, _>` (Rust compares UTF-8 bytes; byte order coincides with
code-point order, which this compares). -/
def chars_lt : List Char → List Char → Bool
  | [], [] => false
  | [], _ :: _ => true
  | _ :: _, [] => false
  | a :: as, b :: bs => if a < b then true else if b < a then false else chars_lt as bs

/-- Lexicographic comparison of strings, the `Ord` a `BTreeMap<String, _>`
sorts its keys by. -/
def str_lt (a b : String) : Bool :=
  chars_lt a.toList b.toList

/-- One tagged query capture, abstracting the (tag, node) pairs the extraction
loop reads. `name` is the per-language resolved display name (`lib.rs` resolves
it by walking the external syntax tree), and `visibility_child` is the text of
the node's `visibility_modifier` child when `find_child_by_type` finds one. -/
structure Capture where
  tag : String
  nodeId : Nat
  name : String
  visibility_child : Option String
deriving DecidableEq

/-- Lookup in the `captured_nodes` map (`BTreeMap<String, Vec<usize>>`),
modelled as an association list; that map's internal ordering is never
observed by the loop. -/
def captured_lookup : List (String × List Nat) → String → Option (List Nat)
  | [], _ => none
  | (t, v) :: rest, tag => if t = tag then some v else captured_lookup rest tag

/-- Mirrors `captured_nodes.get(capture_name).map_or(false, |v| v.contains(&node_id))`. -/
def captured_contains (m : List (String × List Nat)) (tag : String) (nodeId : Nat) : Bool :=
  match captured_lookup m tag with
  | none => false
  | some v => v.contains nodeId

/-- Mirrors `captured_nodes.entry(capture_name).or_default().push(node_id)`. -/
def captured_insert : List (String × List Nat) → String → Nat → List (String × List Nat)
  | [], tag, nodeId => [(tag, [nodeId])]
  | (t, v) :: rest, tag, nodeId =>
    if t = tag then (t, v ++ [nodeId]) :: rest
    else (t, v) :: captured_insert rest tag nodeId

/-- Lookup in the `class_def_map` (`BTreeMap<String, RefCell<Class>>`). -/
def map_lookup : List (String × Class) → String → Option Class
  | [], _ => none
  | (k, v) :: rest, key => if key = k then some v else map_lookup rest key

/-- Mirrors `class_def_map.entry(name).or_insert_with(...)`: insert in key
order (BTreeMap iteration order) and keep an existing entry untouched. -/
def map_or_insert (key : String) (v : Class) : List (String × Class) → List (String × Class)
  | [] => [(key, v)]
  | (k, w) :: rest =>
    if str_lt key k then (key, v) :: (k, w) :: rest
    else if key = k then (k, w) :: rest
    else (k, w) :: map_or_insert key v rest

/-- Mirrors `class_def_map.get_mut(&name)` followed by an in-place assignment
through the `RefCell`. -/
def map_update (key : String) (f : Class → Class) : List (String × Class) → List (String × Class)
  | [] => []
  | (k, w) :: rest =>
    if key = k then (k, f w) :: rest
    else (k, w) :: map_update key f rest

/-- Mirrors the `ensure_class_def` closure in `extract_definitions`. -/
def ensure_class_def (language name : String) (m : List (String × Class)) :
    List (String × Class) :=
  let type_name := if language = "elixir" then "module" else "class"
  map_or_insert name
    { type_name := type_name, name := name, methods := [], properties := [],
      visibility_modifier := none } m

/-- Mirrors the `ensure_module_def` closure in `extract_definitions`. -/
def ensure_module_def (name : String) (m : List (String × Class)) :
    List (String × Class) :=
  map_or_insert name
    { name := name, type_name := "module", methods := [], properties := [],
      visibility_modifier := none } m

/-- The mutable state of the capture loop: the per-tag set of already-processed
node identities and the shared class/module definition map. -/
structure ExtractState where
  captured_nodes : List (String × List Nat)
  class_def_map : List (String × Class)
deriving DecidableEq

/-- Loop state at entry of the capture loop: both maps empty. -/
def initState : ExtractState := { captured_nodes := [], class_def_map := [] }

/-- The body of one capture-loop iteration after the duplicate guard: dispatch
on the capture tag. A nonempty-name `class` capture passes the go
first-letter filter, is ensured in the map, and has its visibility modifier
assigned from this occurrence; a `module` capture is ensured; every other tag
falls through to the empty stub arm. -/
def handle_capture (language : String) (st : ExtractState) (c : Capture) : ExtractState :=
  if c.tag = "class" then
    if c.name ≠ "" then
      if language = "go" && !is_first_letter_uppercase c.name then st
      else
        let m := ensure_class_def language c.name st.class_def_map
        let visibility_modifier := c.visibility_child.getD ""
        let m := map_update c.name
          (fun cd =>
            { cd with visibility_modifier :=
                if visibility_modifier = "" then none else some visibility_modifier }) m
        { st with class_def_map := m }
    else st
  else if c.tag = "module" then
    if c.name ≠ "" then
      { st with class_def_map := ensure_module_def c.name st.class_def_map }
    else st
  else st

/-- One iteration of the capture loop: skip a (tag, node identity) pair already
processed, otherwise record it and handle the capture. -/
def step_capture (language : String) (st : ExtractState) (c : Capture) : ExtractState :=
  if captured_contains st.captured_nodes c.tag c.nodeId then st
  else
    handle_capture language
      { st with captured_nodes := captured_insert st.captured_nodes c.tag c.nodeId } c

/-- The capture loop of `extract_definitions`. -/
def process_captures (language : String) : ExtractState → List Capture → ExtractState
  | st, [] => st
  | st, c :: cs => process_captures language (step_capture language st c) cs

/-- The per-entry emission decision of the final loop over the class map: for
rust keep only entities whose visibility modifier contains "pub"; for every
other language emit the entity unconditionally. -/
def emit_class_entry (language : String) (p : String × Class) : Option Definition :=
  if language = "rust" then
    match p.2.visibility_modifier with
    | some vm => if contains_substring vm "pub" then some (Definition.Class p.2) else none
    | none => none
  else some (Definition.Class p.2)

/-- Final emission over the class map in its iteration order. -/
def emit_classes (language : String) (m : List (String × Class)) : List Definition :=
  m.filterMap (emit_class_entry language)

/-- The enum map is constructed but never populated by the loop. -/
def enum_def_map : List (String × Enum) := []

/-- The union map is constructed but never populated by the loop. -/
def union_def_map : List (String × Union) := []

/-- Emission over the enum map. -/
def emit_enums (m : List (String × Enum)) : List Definition :=
  m.map (fun p => Definition.Enum p.2)

/-- Emission over the union map. -/
def emit_unions (m : List (String × Union)) : List Definition :=
  m.map (fun p => Definition.Union p.2)

/-- Mirrors `extract_definitions`: an unsupported language returns an empty
result before anything else runs; a supported one compiles its query (the only
error exit), runs the capture loop and emits classes, enums and unions in map
order. `captures` stands for the tagged captures the compiled query produces on
the parse tree of the source. -/
def extract_definitions (language : String) (queryCompile : Except String Unit)
    (captures : List Capture) : Except String (List Definition) :=
  match get_ts_language language with
  | none => Except.ok []
  | some _ =>
    match get_definitions_query language queryCompile with
    | Except.error e => Except.error e
    | Except.ok _ =>
      let st := process_captures language initState captures
      Except.ok (emit_classes language st.class_def_map
        ++ emit_enums enum_def_map ++ emit_unions union_def_map)

/-- Mirrors `stringify_function`. -/
def stringify_function (f : Func) : String :=
  let res := "func " ++ f.name
  let res := if f.params = "" then res ++ "()" else res ++ f.params
  let res := if f.return_type ≠ "" then res ++ " -> " ++ f.return_type else res
  let res :=
    match f.accessibility_modifier with
    | some modifier => modifier ++ " " ++ res
    | none => res
  res ++ ";"

/-- Mirrors `stringify_variable`. -/
def stringify_variable (v : Variable) : String :=
  let res := "var " ++ v.name
  let res := if v.value_type ≠ "" then res ++ ":" ++ v.value_type else res
  res ++ ";"

/-- Mirrors `stringify_enum_item`. -/
def stringify_enum_item (item : Variable) : String :=
  let res := item.name
  let res := if item.value_type ≠ "" then res ++ ":" ++ item.value_type else res
  res ++ ";"

/-- Mirrors `stringify_union_item`. -/
def stringify_union_item (item : Variable) : String :=
  let res := item.name
  let res := if item.value_type ≠ "" then res ++ ":" ++ item.value_type else res
  res ++ ";"

/-- Mirrors `stringify_class`. -/
def stringify_class (cd : Class) : String :=
  let res := cd.type_name ++ " " ++ cd.name ++ "\x7b"
  let res := cd.methods.foldl (fun res m => res ++ stringify_function m) res
  let res := cd.properties.foldl (fun res p => res ++ stringify_variable p) res
  res ++ "\x7d;"

/-- Mirrors `stringify_enum`. -/
def stringify_enum (e : Enum) : String :=
  let res := "enum " ++ e.name ++ "\x7b"
  let res := e.items.foldl (fun res it => res ++ stringify_enum_item it) res
  res ++ "\x7d;"

/-- Mirrors `stringify_union`. -/
def stringify_union (u : Union) : String :=
  let res := "union " ++ u.name ++ "\x7b"
  let res := u.items.foldl (fun res it => res ++ stringify_union_item it) res
  res ++ "\x7d;"

/-- Mirrors `stringify_definitions`. -/
def stringify_definitions (definitions : List Definition) : String :=
  definitions.foldl
    (fun res d =>
      match d with
      | Definition.Class cd => res ++ stringify_class cd
      | Definition.Module md => res ++ stringify_class md
      | Definition.Enum e => res ++ stringify_enum e
      | Definition.Union u => res ++ stringify_union u
      | Definition.Func f => res ++ stringify_function f
      | Definition.Variable v => res ++ stringify_variable v)
    ""

/-- Mirrors `get_definitions_string`: render the extracted definitions; the
Lua runtime-error wrapper is modelled by the `Except` error channel. -/
def get_definitions_string (language : String) (queryCompile : Except String Unit)
    (captures : List Capture) : Except String String :=
  (extract_definitions language queryCompile captures).map stringify_definitions

/-- The display name of an emitted definition. -/
def definitionName : Definition → String
  | Definition.Func f => f.name
  | Definition.Class cd => cd.name
  | Definition.Module md => md.name
  | Definition.Enum e => e.name
  | Definition.Variable v => v.name
  | Definition.Union u => u.name

/-- Whether an emitted definition is a class/module entity. -/
def isClassDefinition : Definition → Bool
  | Definition.Class _ => true
  | _ => false

/-- Well-formedness of the class map, the invariant a `BTreeMap` maintains:
keys strictly sorted in lexicographic order, and every entry's `name` field
equal to its key (entries are only ever created with `name` set to the key). -/
def MapWF (m : List (String × Class)) : Prop :=
  List.Sorted (· < ·) (m.map Prod.fst) ∧ ∀ p ∈ m, p.2.name = p.1

/-- Well-formedness of the loop state. -/
def StateWF (st : ExtractState) : Prop :=
  MapWF st.class_def_map

/-- Modelled from the spec: the captures the rust structural query produces on
a source defining `pub struct A { .. }` and, separately, `struct B { .. }`.
The query file `queries/tree-sitter-rust-defs.scm` is an embedded asset absent
from the sources; per the spec each struct declaration is captured under the
`class` tag, the `pub` one carrying a structural `visibility_modifier` child
with text "pub" and the bare one carrying none. -/
def rust_scenario_captures : List Capture :=
  [{ tag := "class", nodeId := 1, name := "A", visibility_child := some "pub" },
   { tag := "class", nodeId := 2, name := "B", visibility_child := none }]

/-- Modelled from the spec: the captures the go structural query produces on a
source defining `func Exported() {}` and `func notExported() {}` at top level.
The query file `queries/tree-sitter-go-defs.scm` is an embedded asset absent
from the sources; per the spec's capture vocabulary a free-standing function
declaration is captured under the `func` tag, with `class`/`module` reserved
for type and namespace declarations. -/
def go_scenario_captures : List Capture :=
  [{ tag := "func", nodeId := 1, name := "Exported", visibility_child := none },
   { tag := "func", nodeId := 2, name := "notExported", visibility_child := none }]

/-- Modelled from the spec: a structural query produces no captures on the
empty source string, whose parse tree contains no declarations to match. -/
def empty_source_captures : List Capture := []

/-! ## Order lemmas for the string comparison of the map -/

theorem lex_cons_iff {x y : Char} {xs ys : List Char} :
    List.Lex (· < ·) (x :: xs) (y :: ys) ↔ x < y ∨ (x = y ∧ List.Lex (· < ·) xs ys) := by
  constructor
  · intro h
    cases h with
    | cons h => exact Or.inr ⟨rfl, h⟩
    | rel h => exact Or.inl h
  · intro h
    rcases h with h | ⟨rfl, h⟩
    · exact List.Lex.rel h
    · exact List.Lex.cons h

theorem chars_lt_iff_lex : ∀ a b : List Char, chars_lt a b = true ↔ List.Lex (· < ·) a b
  | [], [] => by
    simp [chars_lt]
  | [], _ :: _ =>
    iff_of_true rfl List.Lex.nil
  | _ :: _, [] => by
    simp [chars_lt]
  | x :: xs, y :: ys => by
    rw [lex_cons_iff, ← chars_lt_iff_lex xs ys]
    simp only [chars_lt]
    rcases lt_trichotomy x y with h | h | h
    · simp [h]
    · subst h
      simp [lt_irrefl]
    · simp [not_lt_of_gt h, h.ne.symm, (by exact h : y < x)]

theorem str_lt_iff (a b : String) : str_lt a b = true ↔ a < b := by
  rw [String.lt_iff_toList_lt]
  exact chars_lt_iff_lex a.toList b.toList

theorem str_lt_of_not_of_ne {a b : String} (h1 : ¬ str_lt a b = true) (h2 : a ≠ b) :
    str_lt b a = true := by
  rcases lt_trichotomy a b with h | h | h
  · exact absurd ((str_lt_iff a b).2 h) h1
  · exact absurd h h2
  · exact (str_lt_iff b a).2 h

/-! ## Lemmas about the class map operations -/

theorem map_lookup_eq_none {m : List (String × Class)} {key : String}
    (h : key ∉ m.map Prod.fst) : map_lookup m key = none := by
  induction m with
  | nil => rfl
  | cons q rest ih =>
    obtain ⟨k, w⟩ := q
    simp only [List.map_cons, List.mem_cons] at h
    push_neg at h
    simpa [map_lookup, h.1] using ih h.2

theorem mem_of_map_lookup_eq_some {m : List (String × Class)} {key : String} {v : Class}
    (h : map_lookup m key = some v) : (key, v) ∈ m := by
  induction m with
  | nil => cases h
  | cons q rest ih =>
    obtain ⟨k, w⟩ := q
    by_cases hk : key = k
    · subst hk
      simp only [map_lookup, if_true, eq_self_iff_true, Option.some.injEq, ite_true] at h
      subst h
      exact List.mem_cons_self _ _
    · simp only [map_lookup, if_neg hk] at h
      exact List.mem_cons_of_mem _ (ih h)

theorem mem_map_or_insert {key : String} {v : Class} {m : List (String × Class)}
    {p : String × Class} (h : p ∈ map_or_insert key v m) : p = (key, v) ∨ p ∈ m := by
  induction m with
  | nil => simpa [map_or_insert] using h
  | cons q rest ih =>
    obtain ⟨k, w⟩ := q
    by_cases h1 : str_lt key k = true
    · simp only [map_or_insert, if_pos h1] at h
      rcases List.mem_cons.1 h with rfl | h
      · exact Or.inl rfl
      · exact Or.inr h
    · by_cases h2 : key = k
      · simp only [map_or_insert, if_neg h1, if_pos h2] at h
        exact Or.inr h
      · simp only [map_or_insert, if_neg h1, if_neg h2] at h
        rcases List.mem_cons.1 h with rfl | h
        · exact Or.inr (List.mem_cons_self _ _)
        · rcases ih h with h | h
          · exact Or.inl h
          · exact Or.inr (List.mem_cons_of_mem _ h)

theorem map_or_insert_of_lookup_some {key : String} {v w : Class} {m : List (String × Class)}
    (hs : List.Sorted (· < ·) (m.map Prod.fst)) (h : map_lookup m key = some w) :
    map_or_insert key v m = m := by
  induction m with
  | nil => cases h
  | cons q rest ih =>
    obtain ⟨k, u⟩ := q
    simp only [List.map_cons, List.sorted_cons] at hs
    obtain ⟨hk, hrest⟩ := hs
    by_cases h2 : key = k
    · subst h2
      have h1 : ¬ str_lt key key = true := by
        intro hcon
        exact lt_irrefl key ((str_lt_iff key key).1 hcon)
      simp [map_or_insert, h1]
    · have h3 : map_lookup rest key = some w := by
        simpa [map_lookup, h2] using h
      have hmem : key ∈ rest.map Prod.fst :=
        List.mem_map_of_mem Prod.fst (mem_of_map_lookup_eq_some h3)
      have hklt : k < key := hk key hmem
      have h1 : ¬ str_lt key k = true := by
        intro hcon
        exact lt_asymm hklt ((str_lt_iff key k).1 hcon)
      simp [map_or_insert, h1, h2, ih hrest h3]

theorem map_lookup_or_insert_of_none {key : String} {v : Class} {m : List (String × Class)}
    (h : map_lookup m key = none) :
    map_lookup (map_or_insert key v m) key = some v := by
  induction m with
  | nil => simp [map_or_insert, map_lookup]
  | cons q rest ih =>
    obtain ⟨k, w⟩ := q
    by_cases h2 : key = k
    · simp [map_lookup, h2] at h
    · have h3 : map_lookup rest key = none := by
        simpa [map_lookup, h2] using h
      by_cases h1 : str_lt key k = true
      · simp [map_or_insert, h1, map_lookup]
      · simp [map_or_insert, h1, h2, map_lookup, ih h3]

theorem mem_keys_map_or_insert {key : String} {v : Class} {m : List (String × Class)}
    {x : String} (h : x ∈ (map_or_insert key v m).map Prod.fst) :
    x = key ∨ x ∈ m.map Prod.fst := by
  rcases List.mem_map.1 h with ⟨p, hp, rfl⟩
  rcases mem_map_or_insert hp with rfl | hp
  · exact Or.inl rfl
  · exact Or.inr (List.mem_map_of_mem _ hp)

theorem sorted_map_or_insert {key : String} {v : Class} {m : List (String × Class)}
    (hs : List.Sorted (· < ·) (m.map Prod.fst)) :
    List.Sorted (· < ·) ((map_or_insert key v m).map Prod.fst) := by
  induction m with
  | nil => simp [map_or_insert]
  | cons q rest ih =>
    obtain ⟨k, w⟩ := q
    simp only [List.map_cons, List.sorted_cons] at hs
    obtain ⟨hk, hrest⟩ := hs
    by_cases h1 : str_lt key k = true
    · have hlt := (str_lt_iff key k).1 h1
      simp only [map_or_insert, if_pos h1, List.map_cons, List.sorted_cons]
      refine ⟨?_, ?_, hrest⟩
      · intro b hb
        rcases List.mem_cons.1 hb with rfl | hb
        · exact hlt
        · exact lt_trans hlt (hk b hb)
      · exact hk
    · by_cases h2 : key = k
      · simp only [map_or_insert, if_neg h1, if_pos h2, List.map_cons, List.sorted_cons]
        exact ⟨hk, hrest⟩
      · have hgt : k < key := (str_lt_iff k key).1 (str_lt_of_not_of_ne h1 h2)
        simp only [map_or_insert, if_neg h1, if_neg h2, List.map_cons, List.sorted_cons]
        refine ⟨?_, ih hrest⟩
        intro b hb
        rcases mem_keys_map_or_insert hb with rfl | hb
        · exact hgt
        · exact hk b hb

theorem map_update_keys (key : String) (f : Class → Class) :
    ∀ m : List (String × Class), (map_update key f m).map Prod.fst = m.map Prod.fst
  | [] => rfl
  | (k, w) :: rest => by
    by_cases h : key = k <;> simp [map_update, h, map_update_keys key f rest]

theorem map_lookup_map_update_self (key : String) (f : Class → Class)
    (m : List (String × Class)) :
    map_lookup (map_update key f m) key = (map_lookup m key).map f := by
  induction m with
  | nil => rfl
  | cons q rest ih =>
    obtain ⟨k, w⟩ := q
    by_cases h : key = k <;> simp [map_update, map_lookup, h, ih]

theorem map_update_names {key : String} {f : Class → Class} {m : List (String × Class)}
    (hnames : ∀ p ∈ m, p.2.name = p.1) (hf : ∀ w : Class, (f w).name = w.name) :
    ∀ p ∈ map_update key f m, p.2.name = p.1 := by
  induction m with
  | nil => intro p hp; cases hp
  | cons q rest ih =>
    obtain ⟨k, w⟩ := q
    intro p hp
    by_cases h : key = k
    · simp only [map_update, if_pos h] at hp
      rcases List.mem_cons.1 hp with rfl | hp
      · simpa [hf] using hnames (k, w) (List.mem_cons_self _ _)
      · exact hnames p (List.mem_cons_of_mem _ hp)
    · simp only [map_update, if_neg h] at hp
      rcases List.mem_cons.1 hp with rfl | hp
      · exact hnames _ (List.mem_cons_self _ _)
      · exact ih (fun q hq => hnames q (List.mem_cons_of_mem _ hq)) p hp

/-! ## Preservation of the map invariant through the capture loop -/

theorem MapWF_map_or_insert {key : String} {v : Class} {m : List (String × Class)}
    (h : MapWF m) (hv : v.name = key) : MapWF (map_or_insert key v m) := by
  refine ⟨sorted_map_or_insert h.1, ?_⟩
  intro p hp
  rcases mem_map_or_insert hp with rfl | hp
  · exact hv
  · exact h.2 p hp

theorem MapWF_map_update {key : String} {f : Class → Class} {m : List (String × Class)}
    (h : MapWF m) (hf : ∀ w : Class, (f w).name = w.name) : MapWF (map_update key f m) := by
  refine ⟨?_, map_update_names h.2 hf⟩
  rw [map_update_keys]
  exact h.1

theorem MapWF_ensure_class_def {language name : String} {m : List (String × Class)}
    (h : MapWF m) : MapWF (ensure_class_def language name m) :=
  MapWF_map_or_insert h rfl

theorem MapWF_ensure_module_def {name : String} {m : List (String × Class)}
    (h : MapWF m) : MapWF (ensure_module_def name m) :=
  MapWF_map_or_insert h rfl

theorem StateWF_handle_capture {language : String} {st : ExtractState} {c : Capture}
    (h : StateWF st) : StateWF (handle_capture language st c) := by
  simp only [handle_capture]
  split
  · split
    · split
      · exact h
      · exact MapWF_map_update (MapWF_ensure_class_def h) (fun w => rfl)
    · exact h
  · split
    · split
      · exact MapWF_ensure_module_def h
      · exact h
    · exact h

theorem StateWF_step_capture {language : String} {st : ExtractState} {c : Capture}
    (h : StateWF st) : StateWF (step_capture language st c) := by
  simp only [step_capture]
  split
  · exact h
  · exact StateWF_handle_capture h

theorem StateWF_initState : StateWF initState :=
  ⟨List.sorted_nil, fun p hp => absurd hp (List.not_mem_nil p)⟩

theorem StateWF_process_captures (language : String) :
    ∀ (cs : List Capture) (st : ExtractState),
      StateWF st → StateWF (process_captures language st cs)
  | [], _, h => h
  | _ :: cs, _, h =>
    StateWF_process_captures language cs _ (StateWF_step_capture h)

/-! ## Lemmas about the final emission -/

theorem emit_class_entry_eq_some {language : String} {p : String × Class} {d : Definition}
    (h : emit_class_entry language p = some d) :
    d = Definition.Class p.2 ∧
      (language = "rust" →
        ∃ vm, p.2.visibility_modifier = some vm ∧ contains_substring vm "pub" = true) := by
  by_cases hl : language = "rust"
  · simp only [emit_class_entry, if_pos hl] at h
    cases hvm : p.2.visibility_modifier with
    | none => rw [hvm] at h; cases h
    | some vm =>
      rw [hvm] at h
      by_cases hc : contains_substring vm "pub" = true
      · simp only [if_pos hc, Option.some.injEq] at h
        exact ⟨h.symm, fun _ => ⟨vm, rfl, hc⟩⟩
      · simp only [if_neg hc] at h
        cases h
  · simp only [emit_class_entry, if_neg hl, Option.some.injEq] at h
    exact ⟨h.symm, fun hr => absurd hr hl⟩

theorem emit_class_entry_rust_of_pub {p : String × Class} {vm : String}
    (hvm : p.2.visibility_modifier = some vm) (hk : contains_substring vm "pub" = true) :
    emit_class_entry "rust" p = some (Definition.Class p.2) := by
  simp [emit_class_entry, hvm, hk]

theorem emit_classes_names_sublist (language : String) :
    ∀ m : List (String × Class),
      List.Sublist ((emit_classes language m).map definitionName) (m.map (fun p => p.2.name))
  | [] => by simp [emit_classes]
  | p :: rest => by
    simp only [emit_classes, List.filterMap_cons, List.map_cons]
    cases hfp : emit_class_entry language p with
    | none =>
      exact (emit_classes_names_sublist language rest).cons _
    | some d =>
      have hd : definitionName d = p.2.name := by
        rcases emit_class_entry_eq_some hfp with ⟨rfl, _⟩
        rfl
      simp only [List.map_cons, hd]
      exact (emit_classes_names_sublist language rest).cons₂ _

theorem emit_classes_sorted (language : String) {m : List (String × Class)} (h : MapWF m) :
    List.Sorted (· < ·) ((emit_classes language m).map definitionName) := by
  have hnames : m.map (fun p => p.2.name) = m.map Prod.fst :=
    List.map_congr_left (fun p hp => h.2 p hp)
  have hsub := emit_classes_names_sublist language m
  rw [hnames] at hsub
  exact List.Pairwise.sublist hsub h.1

theorem isClassDefinition_emit_classes {language : String} {m : List (String × Class)}
    {d : Definition} (h : d ∈ emit_classes language m) : isClassDefinition d = true := by
  rcases List.mem_filterMap.1 h with ⟨p, _, hp⟩
  rcases emit_class_entry_eq_some hp with ⟨rfl, _⟩
  rfl

/-! ## The claims -/

/-- C1: for every capture stream and query outcome, calling
`extract_definitions` (and hence `get_definitions_string`) with a language
identifier that is not in the registry returns the empty definition sequence,
rendered as the empty string, and never an error. -/
theorem unsupported_language_returns_empty (language : String)
    (queryCompile : Except String Unit) (captures : List Capture)
    (h : get_ts_language language = none) :
    extract_definitions language queryCompile captures = Except.ok [] ∧
      get_definitions_string language queryCompile captures = Except.ok "" := by
  constructor
  · simp [extract_definitions, h]
  · simp [get_definitions_string, extract_definitions, h, Except.map, stringify_definitions]

/-- Witness for C1: the unregistered identifier "unknown" with a non-empty
source and a failing query outcome still yields the empty result. -/
theorem unsupported_language_returns_empty_witness :
    extract_definitions "unknown" (Except.error "boom")
        [{ tag := "class", nodeId := 1, name := "X", visibility_child := none }] =
      Except.ok [] ∧
      get_definitions_string "unknown" (Except.error "boom")
        [{ tag := "class", nodeId := 1, name := "X", visibility_child := none }] =
      Except.ok "" :=
  unsupported_language_returns_empty "unknown" (Except.error "boom")
    [{ tag := "class", nodeId := 1, name := "X", visibility_child := none }] (by decide)

/-- C7: for every supported language identifier, extraction from the empty
source — whose parse tree yields no captures — returns the empty definition
sequence, and its rendering is the empty string. -/
theorem empty_source_yields_empty (language : String)
    (h : (get_ts_language language).isSome = true) :
    extract_definitions language (Except.ok ()) empty_source_captures = Except.ok [] ∧
      stringify_definitions [] = "" := by
  obtain ⟨u, hu⟩ := Option.isSome_iff_exists.1 h
  constructor
  · simp [extract_definitions, hu, get_definitions_query, Except.mapError,
      empty_source_captures, process_captures, initState, emit_classes, emit_enums,
      emit_unions, enum_def_map, union_def_map]
  · rfl

/-- Witness for C7 at the supported language "rust". -/
theorem empty_source_yields_empty_witness :
    extract_definitions "rust" (Except.ok ()) empty_source_captures = Except.ok [] ∧
      stringify_definitions [] = "" :=
  empty_source_yields_empty "rust" (by decide)

/-- C8: for every supported language and every capture stream (any source,
malformed but parseable input included, yields some stream over the
best-effort tree), extraction returns a value; the only hard-error exit is a
query-compilation defect for a supported language, whose message it
propagates. -/
theorem extraction_total_except_query_defect (language : String)
    (queryCompile : Except String Unit) (captures : List Capture) :
    (∃ defs, extract_definitions language queryCompile captures = Except.ok defs) ∨
      ((get_ts_language language).isSome = true ∧
        ∃ e, queryCompile = Except.error e ∧
          extract_definitions language queryCompile captures =
            Except.error ("Failed to parse query for " ++ language ++ ": " ++ e)) := by
  cases hl : get_ts_language language with
  | none => exact Or.inl ⟨[], by simp [extract_definitions, hl]⟩
  | some u =>
    cases hq : queryCompile with
    | error e =>
      refine Or.inr ⟨by simp [hl], e, rfl, ?_⟩
      simp [extract_definitions, hl, get_definitions_query, Except.mapError]
    | ok u2 =>
      refine Or.inl
        ⟨emit_classes language (process_captures language initState captures).class_def_map
          ++ emit_enums enum_def_map ++ emit_unions union_def_map, ?_⟩
      simp [extract_definitions, hl, get_definitions_query, hq, Except.mapError]

/-- C2: for language "rust" an assembled class entity is emitted if and only
if its visibility modifier is present and contains the substring "pub"; on
the captures of `pub struct A { .. }` and `struct B { .. }` exactly one class
entity, for `A`, is emitted. -/
theorem rust_emits_iff_pub (captures : List Capture) :
    (∀ p ∈ (process_captures "rust" initState captures).class_def_map,
      (Definition.Class p.2 ∈
          emit_classes "rust" (process_captures "rust" initState captures).class_def_map ↔
        ∃ vm, p.2.visibility_modifier = some vm ∧ contains_substring vm "pub" = true)) ∧
      extract_definitions "rust" (Except.ok ()) rust_scenario_captures =
        Except.ok [Definition.Class
          { type_name := "class", name := "A", methods := [], properties := [],
            visibility_modifier := some "pub" }] := by
  refine ⟨?_, rfl⟩
  · intro p hp
    constructor
    · intro hmem
      rcases List.mem_filterMap.1 hmem with ⟨q, hq, hqe⟩
      rcases emit_class_entry_eq_some hqe with ⟨heq, hrust⟩
      rcases hrust rfl with ⟨vm, hvm, hc⟩
      have h22 : p.2 = q.2 := by simpa using heq
      exact ⟨vm, by rw [h22]; exact hvm, hc⟩
    · rintro ⟨vm, hvm, hc⟩
      exact List.mem_filterMap.2 ⟨p, hp, emit_class_entry_rust_of_pub hvm hc⟩

/-- Witness for C2: on the scenario captures, the assembled entity for `A`
carries modifier "pub" and is emitted. -/
theorem rust_emits_iff_pub_witness :
    Definition.Class
        { type_name := "class", name := "A", methods := [], properties := [],
          visibility_modifier := some "pub" } ∈
      emit_classes "rust"
        (process_captures "rust" initState rust_scenario_captures).class_def_map :=
  ((rust_emits_iff_pub rust_scenario_captures).1
      ("A", { type_name := "class", name := "A", methods := [], properties := [],
              visibility_modifier := some "pub" })
      (by decide)).2 ⟨"pub", rfl, by decide⟩

/-- C3: evaluation at the failing input. On the go source declaring
`func Exported() {}` and `func notExported() {}` the query produces
function-tagged captures, which fall into the unhandled stub arm of the
capture loop, so no definition at all is emitted — in particular `Exported`
does not surface, where the claim expects it to. -/
theorem go_function_captures_never_surface :
    extract_definitions "go" (Except.ok ()) go_scenario_captures = Except.ok [] ∧
      get_definitions_string "go" (Except.ok ()) go_scenario_captures = Except.ok "" :=
  ⟨rfl, rfl⟩

/-- C10: a class-tagged capture creates its entity with type name "module"
exactly when the language is elixir and "class" for every other language
(rendering then uses that word as the TYPEWORD), and a capture whose resolved
name is empty never creates or changes an entity, for any language. -/
theorem class_entity_type_name (language : String) (st : ExtractState) (c : Capture)
    (hseen : captured_contains st.captured_nodes c.tag c.nodeId = false)
    (htag : c.tag = "class")
    (habs : map_lookup st.class_def_map c.name = none)
    (hgo : language = "go" → is_first_letter_uppercase c.name = true) :
    (c.name ≠ "" →
      map_lookup (step_capture language st c).class_def_map c.name =
        some { type_name := if language = "elixir" then "module" else "class",
               name := c.name, methods := [], properties := [],
               visibility_modifier :=
                 if c.visibility_child.getD "" = "" then none
                 else some (c.visibility_child.getD "") }) ∧
    (∀ c2 : Capture, c2.name = "" →
      (step_capture language st c2).class_def_map = st.class_def_map) ∧
    stringify_class
        { type_name := "module", name := "M", methods := [],
          properties := [], visibility_modifier := none } = "module M{};" := by
  refine ⟨?_, ?_, rfl⟩
  · intro hne
    have hfilter : (language = "go" && !is_first_letter_uppercase c.name) = false := by
      by_cases hl : language = "go"
      · simp [hl, hgo hl]
      · simp [hl]
    have hseen2 : captured_contains st.captured_nodes "class" c.nodeId = false :=
      htag ▸ hseen
    simp only [step_capture, htag, hseen2, Bool.false_eq_true, if_false, handle_capture,
      ne_eq, hne, not_false_eq_true, if_true, hfilter, ensure_class_def]
    rw [map_lookup_map_update_self, map_lookup_or_insert_of_none habs]
    rfl
  · intro c2 h2
    have hmap : ∀ st2 : ExtractState, (handle_capture language st2 c2).class_def_map =
        st2.class_def_map := by
      intro st2
      simp [handle_capture, h2]
    simp only [step_capture]
    split
    · rfl
    · exact hmap _

/-- Witness for C10 at language "elixir" with a fresh capture named "Mod". -/
theorem class_entity_type_name_witness :
    map_lookup (step_capture "elixir" initState
        { tag := "class", nodeId := 1, name := "Mod",
          visibility_child := none }).class_def_map "Mod" =
      some { type_name := "module", name := "Mod", methods := [], properties := [],
             visibility_modifier := none } :=
  (class_entity_type_name "elixir" initState
      { tag := "class", nodeId := 1, name := "Mod", visibility_child := none }
      rfl rfl rfl (fun h => absurd h (by decide))).1 (by decide)

/-- Recording a node identity under one tag leaves the per-tag seen set of
every other tag unchanged. -/
theorem captured_lookup_insert_ne (m : List (String × List Nat)) (t2 tag : String)
    (nodeId : Nat) (h : t2 ≠ tag) :
    captured_lookup (captured_insert m t2 nodeId) tag = captured_lookup m tag := by
  induction m with
  | nil => simp [captured_insert, captured_lookup, h]
  | cons q rest ih =>
    obtain ⟨t, v⟩ := q
    by_cases ht : t = t2
    · subst ht
      simp [captured_insert, captured_lookup, h]
    · simp [captured_insert, captured_lookup, ht, ih]

/-- C4: a capture whose node identity was already processed under the same
tag is skipped outright; one not yet processed under its tag is recorded and
handled; and recording a node identity under one tag does not mark it
processed under a different tag, so the same node captured under another tag
is handled independently. -/
theorem capture_dedup_per_tag (language : String) (st : ExtractState) (c : Capture)
    (t2 : String) :
    (captured_contains st.captured_nodes c.tag c.nodeId = true →
      step_capture language st c = st) ∧
    (captured_contains st.captured_nodes c.tag c.nodeId = false →
      step_capture language st c =
        handle_capture language
          { st with captured_nodes :=
              captured_insert st.captured_nodes c.tag c.nodeId } c) ∧
    (t2 ≠ c.tag →
      captured_contains (captured_insert st.captured_nodes t2 c.nodeId) c.tag c.nodeId =
        captured_contains st.captured_nodes c.tag c.nodeId) := by
  refine ⟨?_, ?_, ?_⟩
  · intro h
    simp [step_capture, h]
  · intro h
    simp [step_capture, h]
  · intro h
    simp [captured_contains, captured_lookup_insert_ne _ _ _ _ h]

/-- Witness for C4: with node 1 already seen under "class" a second "class"
capture of node 1 is a no-op, and recording node 2 under "module" leaves it
unseen under "class". -/
theorem capture_dedup_per_tag_witness :
    step_capture "rust"
        { captured_nodes := [("class", [1])], class_def_map := [] }
        { tag := "class", nodeId := 1, name := "A", visibility_child := none } =
      { captured_nodes := [("class", [1])], class_def_map := [] } ∧
    captured_contains (captured_insert [("class", [1])] "module" 2) "class" 2 =
      captured_contains [("class", [1])] "class" 2 :=
  ⟨(capture_dedup_per_tag "rust"
      { captured_nodes := [("class", [1])], class_def_map := [] }
      { tag := "class", nodeId := 1, name := "A", visibility_child := none }
      "module").1 (by decide),
   (capture_dedup_per_tag "rust"
      { captured_nodes := [("class", [1])], class_def_map := [] }
      { tag := "class", nodeId := 2, name := "A", visibility_child := none }
      "module").2.2 (by decide)⟩

/-- C6 counterexample: two class-tagged captures resolve to the name "A", the
first carrying a modifier child "pub" and the second carrying none; the
second occurrence overwrites the stored visibility modifier with `none`,
not the last modifier-carrying value `some "pub"` the claim specifies. -/
theorem modifierless_occurrence_clears_modifier :
    (process_captures "rust" initState
        [{ tag := "class", nodeId := 1, name := "A", visibility_child := some "pub" },
         { tag := "class", nodeId := 2, name := "A",
           visibility_child := none }]).class_def_map =
      [("A", { type_name := "class", name := "A", methods := [], properties := [],
               visibility_modifier := none })] :=
  rfl

/-- C6 amended: a processed class-tagged occurrence for an existing entry
writes the entry's visibility modifier unconditionally — `some` of the
modifier child's text when this occurrence carries a nonempty one and `none`
when it does not, so the last occurrence wins overall (not merely the last
modifier-carrying one) — and leaves the entry's name, type name, methods and
properties unchanged. -/
theorem class_capture_overwrites_modifier (language : String) (st : ExtractState)
    (c : Capture) (cd : Class) (hwf : StateWF st)
    (hseen : captured_contains st.captured_nodes c.tag c.nodeId = false)
    (htag : c.tag = "class") (hne : c.name ≠ "")
    (hgo : language = "go" → is_first_letter_uppercase c.name = true)
    (hmem : map_lookup st.class_def_map c.name = some cd) :
    map_lookup (step_capture language st c).class_def_map c.name =
      some { cd with
              visibility_modifier :=
                if c.visibility_child.getD "" = "" then none
                else some (c.visibility_child.getD "") } := by
  have hfilter : (language = "go" && !is_first_letter_uppercase c.name) = false := by
    by_cases hl : language = "go"
    · simp [hl, hgo hl]
    · simp [hl]
  have hseen2 : captured_contains st.captured_nodes "class" c.nodeId = false :=
    htag ▸ hseen
  simp only [step_capture, htag, hseen2, Bool.false_eq_true, if_false, handle_capture,
    ne_eq, hne, not_false_eq_true, if_true, hfilter, ensure_class_def]
  rw [map_lookup_map_update_self, map_or_insert_of_lookup_some hwf.1 hmem, hmem]
  rfl

/-- Witness for C6 amended: a modifierless second occurrence for "A" resets
the stored modifier from `some "pub"` to `none`. -/
theorem class_capture_overwrites_modifier_witness :
    map_lookup (step_capture "rust"
        { captured_nodes := [("class", [1])],
          class_def_map := [("A", { type_name := "class", name := "A", methods := [],
                                    properties := [],
                                    visibility_modifier := some "pub" })] }
        { tag := "class", nodeId := 2, name := "A",
          visibility_child := none }).class_def_map "A" =
      some { type_name := "class", name := "A", methods := [], properties := [],
             visibility_modifier := none } :=
  class_capture_overwrites_modifier "rust"
    { captured_nodes := [("class", [1])],
      class_def_map := [("A", { type_name := "class", name := "A", methods := [],
                                properties := [],
                                visibility_modifier := some "pub" })] }
    { tag := "class", nodeId := 2, name := "A", visibility_child := none }
    { type_name := "class", name := "A", methods := [], properties := [],
      visibility_modifier := some "pub" }
    ⟨by decide, by decide⟩ (by decide) rfl (by decide)
    (fun h => absurd h (by decide)) (by decide)

/-- A capture of any tag whose resolved name already has a map entry creates
no new entry and leaves the stored type name of that entry unchanged. -/
theorem handle_capture_keys_of_mem {language : String} {st : ExtractState} {c : Capture}
    {cd : Class} (hwf : StateWF st)
    (hmem : map_lookup st.class_def_map c.name = some cd) :
    (handle_capture language st c).class_def_map.map Prod.fst =
        st.class_def_map.map Prod.fst ∧
      (map_lookup (handle_capture language st c).class_def_map c.name).map Class.type_name =
        some cd.type_name := by
  simp only [handle_capture]
  split
  · split
    · split
      · exact ⟨rfl, by simp [hmem]⟩
      · constructor
        · simp only [ensure_class_def]
          rw [map_update_keys, map_or_insert_of_lookup_some hwf.1 hmem]
        · simp only [ensure_class_def]
          rw [map_lookup_map_update_self, map_or_insert_of_lookup_some hwf.1 hmem, hmem]
          rfl
    · exact ⟨rfl, by simp [hmem]⟩
  · split
    · split
      · constructor
        · simp only [ensure_module_def]
          rw [map_or_insert_of_lookup_some hwf.1 hmem]
        · simp only [ensure_module_def]
          rw [map_or_insert_of_lookup_some hwf.1 hmem, hmem]
          rfl
      · exact ⟨rfl, by simp [hmem]⟩
    · exact ⟨rfl, by simp [hmem]⟩

/-- C9: class- and module-tagged captures accumulate in one shared name-keyed
map: a capture of either tag whose resolved name already has an entry creates
no second entry and leaves the stored type name unchanged, and consequently
an extraction call emits at most one class/module entity per name. -/
theorem shared_class_module_map (language : String) (st : ExtractState) (c : Capture)
    (cd : Class) (hwf : StateWF st)
    (htag : c.tag = "class" ∨ c.tag = "module")
    (hmem : map_lookup st.class_def_map c.name = some cd) :
    ((step_capture language st c).class_def_map.map Prod.fst =
        st.class_def_map.map Prod.fst ∧
      (map_lookup (step_capture language st c).class_def_map c.name).map Class.type_name =
        some cd.type_name) ∧
    ∀ (cs : List Capture) (defs : List Definition),
      extract_definitions language (Except.ok ()) cs = Except.ok defs →
      ∀ n : String, (defs.map definitionName).count n ≤ 1 := by
  constructor
  · simp only [step_capture]
    split
    · exact ⟨rfl, by simp [hmem]⟩
    · exact handle_capture_keys_of_mem hwf hmem
  · intro cs defs hex n
    cases hl : get_ts_language language with
    | none =>
      simp [extract_definitions, hl] at hex
      subst hex
      simp
    | some u =>
      simp [extract_definitions, hl, get_definitions_query, Except.mapError, emit_enums,
        emit_unions, enum_def_map, union_def_map] at hex
      have hwfm : StateWF (process_captures language initState cs) :=
        StateWF_process_captures language cs initState StateWF_initState
      have hnodup :=
        List.Sorted.nodup (emit_classes_sorted language hwfm)
      have hcount := List.nodup_iff_count_le_one.1 hnodup n
      rw [← hex]
      simpa using hcount

/-- Witness for C9: a module-tagged capture for the already-present name "A"
leaves the entry's type name "class" unchanged. -/
theorem shared_class_module_map_witness :
    (map_lookup (step_capture "ruby"
        { captured_nodes := [],
          class_def_map := [("A", { type_name := "class", name := "A", methods := [],
                                    properties := [],
                                    visibility_modifier := none })] }
        { tag := "module", nodeId := 1, name := "A",
          visibility_child := none }).class_def_map "A").map Class.type_name =
      some "class" :=
  ((shared_class_module_map "ruby"
      { captured_nodes := [],
        class_def_map := [("A", { type_name := "class", name := "A", methods := [],
                                  properties := [],
                                  visibility_modifier := none })] }
      { tag := "module", nodeId := 1, name := "A", visibility_child := none }
      { type_name := "class", name := "A", methods := [], properties := [],
        visibility_modifier := none }
      ⟨by decide, by decide⟩ (Or.inr rfl) (by decide)).1).2

/-- C5: for a supported language the emitted sequence is exactly the class
entities in class-map iteration order — sorted lexicographically by resolved
name — followed by the enum entities and then the union entities of their own
(never-populated) maps; in particular the whole output is sorted by name and
consists of class entities only. -/
theorem emission_sorted_by_kind_then_name (language : String) (captures : List Capture)
    (h : (get_ts_language language).isSome = true) :
    ∃ defs, extract_definitions language (Except.ok ()) captures = Except.ok defs ∧
      defs =
        emit_classes language (process_captures language initState captures).class_def_map
          ++ emit_enums enum_def_map ++ emit_unions union_def_map ∧
      List.Sorted (· ≤ ·) (defs.map definitionName) ∧
      ∀ d ∈ defs, isClassDefinition d = true := by
  obtain ⟨u, hu⟩ := Option.isSome_iff_exists.1 h
  refine
    ⟨emit_classes language (process_captures language initState captures).class_def_map
        ++ emit_enums enum_def_map ++ emit_unions union_def_map, ?_, rfl, ?_, ?_⟩
  · simp [extract_definitions, hu, get_definitions_query, Except.mapError]
  · have hwfm : StateWF (process_captures language initState captures) :=
      StateWF_process_captures language captures initState StateWF_initState
    simp only [emit_enums, emit_unions, enum_def_map, union_def_map, List.map_nil,
      List.append_nil]
    exact (emit_classes_sorted language hwfm).le_of_lt
  · intro d hd
    simp only [emit_enums, emit_unions, enum_def_map, union_def_map, List.map_nil,
      List.append_nil] at hd
    exact isClassDefinition_emit_classes hd

/-- Witness for C5 at language "python" on a two-capture stream. -/
theorem emission_sorted_by_kind_then_name_witness :
    ∃ defs, extract_definitions "python" (Except.ok ())
        [{ tag := "class", nodeId := 1, name := "Q", visibility_child := none },
         { tag := "class", nodeId := 2, name := "P", visibility_child := none }] =
      Except.ok defs ∧
      defs =
        emit_classes "python" (process_captures "python" initState
          [{ tag := "class", nodeId := 1, name := "Q", visibility_child := none },
           { tag := "class", nodeId := 2, name := "P",
             visibility_child := none }]).class_def_map
          ++ emit_enums enum_def_map ++ emit_unions union_def_map ∧
      List.Sorted (· ≤ ·) (defs.map definitionName) ∧
      ∀ d ∈ defs, isClassDefinition d = true :=
  emission_sorted_by_kind_then_name "python"
    [{ tag := "class", nodeId := 1, name := "Q", visibility_child := none },
     { tag := "class", nodeId := 2, name := "P", visibility_child := none }] (by decide)

end RepoMap
